import Mathlib

/-!
Verification of the Vectra evacuation core (`app/services/evacuation.py` and
`app/api/routes.py`) against its natural-language specification.

The development shallowly embeds the graph builder
(`EvacuationService.generate_network_graph`), the flow entry point
(`EvacuationService.calculate_max_flow`), the endpoint-selection block of
`run_simulation`, and the derived metrics.  Python floats are modelled as
rationals (`ℚ`); database records become the `Seg` structure; the NetworkX
`DiGraph` becomes the `Graph` structure with insertion-ordered node and edge
lists.
-/

namespace Vectra

/-- A road-segment record as queried by `generate_network_graph`
(columns `source`, `target`, `capacity`, `cost_time`, `geom`, `road_name`).
`geometry = some l` models a parsed geometry object carrying a coordinate
list `l` of (longitude, latitude) pairs; `geometry = none` models a value
with no `coords` attribute (absent or unparseable geometry). -/
structure Seg where
  source : Option Int
  target : Option Int
  capacity : Option ℚ
  cost_time : Option ℚ
  geometry : Option (List (ℚ × ℚ))
  road_name : Option String
deriving Repr, DecidableEq

/-- `charsStart needle hay`: `needle` starts `hay` (character-list level). -/
def charsStart : List Char → List Char → Bool
  | [], _ => true
  | _ :: _, [] => false
  | a :: as, b :: bs => a == b && charsStart as bs

/-- `charsHave needle hay`: `needle` occurs contiguously inside `hay`. -/
def charsHave (needle : List Char) : List Char → Bool
  | [] => charsStart needle []
  | c :: tl => charsStart needle (c :: tl) || charsHave needle tl

/-- Model of Python `needle in hay` for strings. -/
def strHas (hay needle : String) : Bool :=
  charsHave needle.toList hay.toList

/-- Model of Python `str.upper()` (ASCII, which covers the road and region
names involved); executable by kernel reduction. -/
def strUpper (s : String) : String :=
  ⟨s.data.map Char.toUpper⟩

/-- Model of `capacity = seg.capacity if seg.capacity else 1800.0`:
Python truthiness keeps any non-`None`, non-zero value (negative values
included) and replaces `None` and `0.0` by `1800.0`. -/
def resolvedCap (seg : Seg) : ℚ :=
  match seg.capacity with
  | none => 1800
  | some c => if c = 0 then 1800 else c

/-- Model of `if scenario == "contraflow" and seg.road_name:`; Python
truthiness of a string: `None` and the empty string are falsy. -/
def truthyName : Option String → Bool
  | none => false
  | some s => !(s == "")

/-- The region if/elif chain of `generate_network_graph`, lines 148-180:
given the direction booleans of an eligible (major-highway) segment, decide
whether the edge is reversed.  The final `elif is_major and is_sb` branch is
evaluated with `is_major` true, since the whole chain sits under
`if is_major`. -/
def regionShouldReverse (region : String) (is_sb is_wb is_eb : Bool) : Bool :=
  let R := strUpper region
  if strHas R "TAMPA" || strHas R "SARASOTA" then is_sb || is_wb
  else if strHas R "ORLANDO" || strHas R "DAYTONA" || strHas R "LAKELAND" then
    is_sb || is_wb
  else if strHas R "MIAMI" || strHas R "SOUTH FL" || strHas R "PORT ST. LUCIE"
      || strHas R "MELBOURNE" then is_sb || is_eb
  else if strHas R "CAPE CORAL" || strHas R "NAPLES" || strHas R "FORT MYERS" then
    is_sb || is_eb
  else if strHas R "JACKSONVILLE" then is_sb || is_eb
  else if strHas R "TALLAHASSEE" || strHas R "PENSACOLA" then is_sb || is_eb
  else is_sb

/-- One loop iteration of `generate_network_graph` up to the edge insertion:
`.ok none` = segment skipped (missing endpoint), `.ok (some ((u,v), cap, cost))`
= edge data to insert, `.error ()` = an uncaught Python exception
(`coords[0]` on an empty coordinate sequence raises `IndexError`; the loop
body has no try/except). -/
def processSeg (scenario region : String) (seg : Seg) :
    Except Unit (Option ((Int × Int) × ℚ × Option ℚ)) :=
  match seg.source, seg.target with
  | some s, some t =>
    let cap := resolvedCap seg
    if scenario == "contraflow" && truthyName seg.road_name then
      let name := strUpper (seg.road_name.getD "")
      if strHas name "MAJOR HWY" then
        match seg.geometry with
        | none => .ok (some ((s, t), cap, seg.cost_time))
        | some [] => .error ()
        | some (p :: ps) =>
          let q := ps.getLastD p
          let dx := q.1 - p.1
          let dy := q.2 - p.2
          if regionShouldReverse region (decide (dy < 0)) (decide (dx < 0))
              (decide (0 < dx)) then
            .ok (some ((t, s), cap, seg.cost_time))
          else
            .ok (some ((s, t), cap, seg.cost_time))
      else .ok (some ((s, t), cap, seg.cost_time))
    else .ok (some ((s, t), cap, seg.cost_time))
  | _, _ => .ok none

/-- A directed edge of the NetworkX graph with its `capacity` and `cost`
attributes. -/
structure EdgeR where
  u : Int
  v : Int
  cap : ℚ
  cost : Option ℚ
deriving Repr, DecidableEq

/-- The NetworkX `DiGraph` as built by `generate_network_graph`: nodes and
edges in insertion order. -/
structure Graph where
  nodes : List Int
  edges : List EdgeR
deriving Repr, DecidableEq

/-- `add_node` semantics: append if not already present. -/
def addNode (ns : List Int) (x : Int) : List Int :=
  if x ∈ ns then ns else ns ++ [x]

/-- Lines 186-191: `if G.has_edge(u, v): G[u][v]['capacity'] += capacity
else: G.add_edge(u, v, capacity=capacity, cost=seg.cost_time)`. -/
def addEdge (G : Graph) (u v : Int) (c : ℚ) (cost : Option ℚ) : Graph :=
  if G.edges.any (fun e => decide (e.u = u ∧ e.v = v)) then
    let upd := fun (e : EdgeR) =>
      if e.u = u ∧ e.v = v then { e with cap := e.cap + c } else e
    { G with edges := G.edges.map upd }
  else
    { nodes := addNode (addNode G.nodes u) v
      edges := G.edges ++ [{ u := u, v := v, cap := c, cost := cost }] }

/-- The segment loop of `generate_network_graph`, threading the graph. -/
def buildG (scenario region : String) : List Seg → Graph → Except Unit Graph
  | [], G => .ok G
  | seg :: tl, G =>
    match processSeg scenario region seg with
    | .error e => .error e
    | .ok none => buildG scenario region tl G
    | .ok (some ((u, v), cap, cost)) =>
      buildG scenario region tl (addEdge G u v cap cost)

/-- `EvacuationService.generate_network_graph`, with the queried segment list
made explicit.  `.error ()` models an uncaught exception escaping the call. -/
def generate_network_graph (segments : List Seg)
    (scenario : String := "baseline") (region : String := "Tampa Bay") :
    Except Unit Graph :=
  buildG scenario region segments { nodes := [], edges := [] }

/-- Capacity attribute of the (first) edge `(u, v)`, if present. -/
def capOf : List EdgeR → Int → Int → Option ℚ
  | [], _, _ => none
  | e :: tl, u, v => if e.u = u ∧ e.v = v then some e.cap else capOf tl u v

/-- Cost attribute of the (first) edge `(u, v)`: `some c` means the edge
exists and its `cost` annotation is `c`. -/
def costOf : List EdgeR → Int → Int → Option (Option ℚ)
  | [], _, _ => none
  | e :: tl, u, v => if e.u = u ∧ e.v = v then some e.cost else costOf tl u v

/-- Capacity of edge `(u, v)` with default 0 when absent. -/
def capOfD (G : Graph) (u v : Int) : ℚ :=
  (capOf G.edges u v).getD 0

/-- Total (defaulted) capacity of the input segments that map to the ordered
pair `(u, v)` after the reversal decision. -/
def mappedCapSum (scenario region : String) (u v : Int) : List Seg → ℚ
  | [] => 0
  | seg :: tl =>
    match processSeg scenario region seg with
    | .ok (some ((x, y), c, _)) =>
      (if x = u ∧ y = v then c else 0) + mappedCapSum scenario region u v tl
    | _ => mappedCapSum scenario region u v tl

/-- Travel cost of the first segment that maps to the ordered pair
`(u, v)` after the reversal decision (`none` when no segment does). -/
def firstCost (scenario region : String) (u v : Int) : List Seg → Option (Option ℚ)
  | [] => none
  | seg :: tl =>
    match processSeg scenario region seg with
    | .ok (some ((x, y), _, cost)) =>
      if x = u ∧ y = v then some cost else firstCost scenario region u v tl
    | _ => firstCost scenario region u v tl

/-! ### Flow solver

`calculate_max_flow` guards node membership, then calls
`nx.maximum_flow_value` inside `try/except` with every exception mapped to 0.
The NetworkX call is external library code; it is modelled here by an
executable breadth-first augmenting-path (Edmonds–Karp style) computation —
the algorithm the service documentation names — plus the library's
documented `NetworkXError` when source and sink coincide. -/

/-- Residual capacities as an association list over ordered node pairs. -/
abbrev Residual := List ((Int × Int) × ℚ)

/-- Residual capacity of an ordered pair (0 when absent). -/
def rget : Residual → (Int × Int) → ℚ
  | [], _ => 0
  | e :: tl, k => if e.1 = k then e.2 else rget tl k

/-- Set the residual capacity of a pair: replace the first entry with that
key, or append a new entry. -/
def rset : Residual → (Int × Int) → ℚ → Residual
  | [], k, w => [(k, w)]
  | e :: tl, k, w => if e.1 = k then (k, w) :: tl else e :: rset tl k w

/-- Successor candidates of `x`: second components of keys with first
component `x`. -/
def succs (r : Residual) (x : Int) : List Int :=
  (r.filter (fun e => decide (e.1.1 = x))).map (fun e => e.1.2)

/-- Breadth-first search over arcs of positive residual capacity.  The queue
holds reversed paths (head = current node); `vis` is the visited set. -/
def bfsPaths (r : Residual) (t : Int) :
    Nat → List (List Int) → List Int → Option (List Int)
  | 0, _, _ => none
  | _ + 1, [], _ => none
  | fuel + 1, p :: ps, vis =>
    match p with
    | [] => bfsPaths r t fuel ps vis
    | x :: _ =>
      if x = t then some p.reverse
      else
        let ns := (succs r x).filter
          (fun y => decide (0 < rget r (x, y)) && decide (y ∉ vis))
        bfsPaths r t fuel (ps ++ ns.map (fun y => y :: p)) (vis ++ ns)

/-- One augmenting-path search from `s` to `t`. -/
def findAugPath (r : Residual) (s t : Int) : Option (List Int) :=
  bfsPaths r t (2 * r.length + 2) [[s]] [s]

/-- Consecutive arcs of a node path. -/
def pathArcs : List Int → List (Int × Int)
  | [] => []
  | [_] => []
  | x :: y :: tl => (x, y) :: pathArcs (y :: tl)

/-- Minimum of a rational list (0 for the empty list). -/
def minList : List ℚ → ℚ
  | [] => 0
  | [x] => x
  | x :: y :: tl => min x (minList (y :: tl))

/-- Push `d` units of flow along the given arcs: decrease each forward
residual, increase each reverse residual. -/
def augmentArcs (d : ℚ) : List (Int × Int) → Residual → Residual
  | [], r => r
  | (x, y) :: tl, r =>
    let r1 := rset r (x, y) (rget r (x, y) - d)
    let r2 := rset r1 (y, x) (rget r1 (y, x) + d)
    augmentArcs d tl r2

/-- The augmenting loop: find a shortest augmenting path, push its
bottleneck, repeat until no path remains (or fuel runs out). -/
def ekLoop (s t : Int) : Nat → Residual → ℚ → ℚ
  | 0, _, acc => acc
  | fuel + 1, r, acc =>
    match findAugPath r s t with
    | none => acc
    | some p =>
      let arcs := pathArcs p
      let d := minList (arcs.map (rget r))
      ekLoop s t fuel (augmentArcs d arcs r) (acc + d)

/-- Initial residual: every graph edge with its capacity attribute. -/
def initR (G : Graph) : Residual :=
  G.edges.map (fun e => ((e.u, e.v), e.cap))

/-- The flow value computed by the augmenting-path algorithm; the fuel bound
covers the Edmonds–Karp augmentation count. -/
def ekRun (G : Graph) (s t : Int) : ℚ :=
  ekLoop s t ((G.nodes.length + 1) * (G.edges.length + 1)) (initR G) 0

/-- Model of `nx.maximum_flow_value(graph, s, t, capacity='capacity')`:
raises `NetworkXError` when source and sink are the same node, otherwise
returns the breadth-first augmenting-path flow value. -/
def nxMaximumFlowValue (G : Graph) (s t : Int) : Except Unit ℚ :=
  if s = t then .error () else .ok (ekRun G s t)

/-- `EvacuationService.calculate_max_flow`: return 0 when either endpoint is
not a node of the graph; otherwise call the library and map any raised
exception to 0. -/
def calculate_max_flow (G : Graph) (source_node sink_node : Int) : ℚ :=
  if source_node ∈ G.nodes ∧ sink_node ∈ G.nodes then
    match nxMaximumFlowValue G source_node sink_node with
    | .ok v => v
    | .error _ => 0
  else 0

/-- Sum of the entries of a residual whose key leaves `s`. -/
def outOf (s : Int) : Residual → ℚ
  | [] => 0
  | e :: tl => (if e.1.1 = s then e.2 else 0) + outOf s tl

/-- Sum of the capacities of all edges directly leaving `s`. -/
def outCapSum (G : Graph) (s : Int) : ℚ :=
  (G.edges.filter (fun e => decide (e.u = s))).foldr (fun e a => e.cap + a) 0

/-- One directed graph arc. -/
def edgeRel (G : Graph) (x y : Int) : Prop :=
  ∃ e ∈ G.edges, e.u = x ∧ e.v = y

/-- Existence of a directed path in the graph. -/
def hasPath (G : Graph) (s t : Int) : Prop :=
  Relation.ReflTransGen (edgeRel G) s t

/-- Well-formedness of a reversed search path (head = current node, last
element = the search origin `s`): consecutive arcs have positive residual. -/
def revOK (r : Residual) (s : Int) : List Int → Prop
  | [] => False
  | [x] => x = s
  | x :: y :: q => 0 < rget r (y, x) ∧ revOK r s (y :: q)

/-- Well-formedness of a forward path: consecutive arcs have positive
residual capacity. -/
def fwdOK (r : Residual) : List Int → Prop
  | [] => True
  | [_] => True
  | x :: y :: q => 0 < rget r (x, y) ∧ fwdOK r (y :: q)

/-! ### Endpoint selection (`run_simulation`, routes.py lines 226-266)

The try-block raises `HTTPException(404, "Graph is empty…")` exactly when the
graph has zero nodes (the empty-graph error of the spec), and maps any other
exception in the block to a 500 error.  Both outcomes are modelled by
`SelErr`.  `random.choice` is modelled by an injected list of indices, and
the iteration order of the Python sets returned by `nx.descendants` by the
breadth-first discovery order. -/

/-- Distinguishes the empty-graph signal (HTTP 404) from any other exception
of the selection block (HTTP 500). -/
inductive SelErr where
  | emptyGraph
  | other
deriving Repr, DecidableEq

/-- Undirected neighbours of `x` (both edge orientations). -/
def undirNbrs (G : Graph) (x : Int) : List Int :=
  (G.edges.filterMap (fun e => if e.u = x then some e.v else none)) ++
  (G.edges.filterMap (fun e => if e.v = x then some e.u else none))

/-- Generic breadth-first closure: grow `acc` by the `nbrs` relation
starting from `frontier`. -/
def closure (nbrs : Int → List Int) : Nat → List Int → List Int → List Int
  | 0, _, acc => acc
  | _ + 1, [], acc => acc
  | fuel + 1, x :: fr, acc =>
    let fresh := (nbrs x).filter (fun y => decide (y ∉ acc))
    closure nbrs fuel (fr ++ fresh) (acc ++ fresh)

/-- Weakly-connected component of `x` (direction-ignoring reachability). -/
def wccOf (G : Graph) (x : Int) : List Int :=
  closure (undirNbrs G) (G.nodes.length + 2 * G.edges.length + 2) [x] [x]

/-- Enumeration of the weakly-connected components, in first-node order
(models `nx.weakly_connected_components`). -/
def wccs (G : Graph) : List (List Int) :=
  G.nodes.foldl
    (fun comps x => if comps.any (fun c => decide (x ∈ c)) then comps
      else comps ++ [wccOf G x]) []

/-- Python `max(…, key=len)`: first component of maximal length. -/
def maxByLen : List (List Int) → List Int
  | [] => []
  | c :: cs => cs.foldl (fun best c2 => if best.length < c2.length then c2 else best) c

/-- Model of `nx.is_weakly_connected`: every node lies in the weak component
of the first node. -/
def isWeaklyConnected (G : Graph) : Bool :=
  match G.nodes with
  | [] => false
  | x :: _ => G.nodes.all (fun y => decide (y ∈ wccOf G x))

/-- `graph.subgraph(cc).copy()`: node-induced subgraph, original orders. -/
def inducedSubgraph (G : Graph) (cc : List Int) : Graph :=
  { nodes := G.nodes.filter (fun x => decide (x ∈ cc))
    edges := G.edges.filter (fun e => decide (e.u ∈ cc ∧ e.v ∈ cc)) }

/-- Directed reachability closure from `v` (including `v`). -/
def reachClosure (G : Graph) (v : Int) : List Int :=
  closure (fun x => G.edges.filterMap (fun e => if e.u = x then some e.v else none))
    (G.nodes.length + 2 * G.edges.length + 2) [v] [v]

/-- Model of `nx.descendants`: nodes reachable from `v`, excluding `v`. -/
def descendants (G : Graph) (v : Int) : List Int :=
  (reachClosure G v).filter (fun y => decide (y ≠ v))

/-- The `for _ in range(10)` trial loop: draw a random node, accept it as
source when more than 50 nodes are reachable from it, with the last
discovered descendant as sink. -/
def trials (sub : Graph) (nodes : List Int) : List Nat → Nat → Option (Int × Int)
  | _, 0 => none
  | choices, k + 1 =>
    match nodes with
    | [] => none
    | _ :: _ =>
      let idx := choices.headD 0 % nodes.length
      match nodes.get? idx with
      | none => none
      | some cand =>
        let desc := descendants sub cand
        if 50 < desc.length then some (cand, desc.getLastD 0)
        else trials sub nodes choices.tail k

/-- The endpoint-selection block of `run_simulation`: 404 on an empty graph,
restriction to the largest weakly-connected component, ten random trials,
deterministic fallback.  Returns the graph actually used together with the
chosen endpoints. -/
def selectEndpoints (G : Graph) (choices : List Nat) :
    Except SelErr (Graph × Int × Int) :=
  if G.nodes.length = 0 then .error .emptyGraph
  else
    let sub := if isWeaklyConnected G then G else inducedSubgraph G (maxByLen (wccs G))
    let nodes := sub.nodes
    match trials sub nodes choices 10 with
    | some (s, t) => .ok (sub, s, t)
    | none =>
      match nodes with
      | [] => .error .other
      | n0 :: _ => .ok (sub, n0, nodes.getLastD n0)

/-! ### Derived metrics (`run_simulation`, routes.py lines 272-280) -/

/-- `gridlock_risk = "CRITICAL" if flow_value < 1000 else "MODERATE"`. -/
def gridlock_risk (flow_value : ℚ) : String :=
  if flow_value < 1000 then "CRITICAL" else "MODERATE"

/-- `clearance_time_hours = 24.0; if flow_value > 0: … = 1000000 / flow_value`. -/
def clearance_time_hours (flow_value : ℚ) : ℚ :=
  if 0 < flow_value then 1000000 / flow_value else 24

/-- Python `round(x, 2)` (round half to even), on rationals. -/
def round2 (q : ℚ) : ℚ :=
  let z : ℚ := q * 100
  let f : ℤ := ⌊z⌋
  let r : ℚ := z - f
  let n : ℤ :=
    if r < 1 / 2 then f
    else if 1 / 2 < r then f + 1
    else if f % 2 = 0 then f else f + 1
  (n : ℚ) / 100

/-- `clearance_time_hours` as reported in the response JSON. -/
def reported_clearance (flow_value : ℚ) : ℚ :=
  round2 (clearance_time_hours flow_value)

/-- The capacity-merge update of `addEdge`, as a standalone function. -/
def capUpd (u v : Int) (c : ℚ) (e : EdgeR) : EdgeR :=
  if e.u = u ∧ e.v = v then { e with cap := e.cap + c } else e

/-- Ordered endpoint pairs of the edges of a graph. -/
def pairsOf (G : Graph) : List (Int × Int) :=
  G.edges.map (fun e => (e.u, e.v))

/-- The graph the selection block actually works on. -/
def selSubgraph (G : Graph) : Graph :=
  if isWeaklyConnected G then G else inducedSubgraph G (maxByLen (wccs G))


/-! ### Endpoint selection: the empty-graph signal -/

theorem mem_closure_of_mem_acc (nbrs : Int → List Int) :
    ∀ (fuel : Nat) (fr acc : List Int) (x : Int),
      x ∈ acc → x ∈ closure nbrs fuel fr acc := by
  intro fuel
  induction fuel with
  | zero => intro fr acc x hx; exact hx
  | succ n ih =>
    intro fr acc x hx
    cases fr with
    | nil => exact hx
    | cons f fs =>
      unfold closure
      exact ih _ _ x (List.mem_append.mpr (Or.inl hx))

theorem self_mem_wccOf (G : Graph) (x : Int) : x ∈ wccOf G x := by
  unfold wccOf
  exact mem_closure_of_mem_acc _ _ _ _ x (List.mem_singleton.mpr rfl)

theorem wccs_elem_form (G : Graph) :
    ∀ c ∈ wccs G, ∃ x ∈ G.nodes, c = wccOf G x := by
  unfold wccs
  have key : ∀ (l : List Int) (acc : List (List Int)),
      (∀ x ∈ l, x ∈ G.nodes) →
      (∀ c ∈ acc, ∃ x ∈ G.nodes, c = wccOf G x) →
      ∀ c ∈ l.foldl (fun comps x =>
          if comps.any (fun c => decide (x ∈ c)) then comps
          else comps ++ [wccOf G x]) acc,
        ∃ x ∈ G.nodes, c = wccOf G x := by
    intro l
    induction l with
    | nil => intro acc _ hacc c hc; exact hacc c hc
    | cons a l ih =>
      intro acc hl hacc c hc
      rw [List.foldl_cons] at hc
      refine ih _ (fun x hx => hl x (List.mem_cons_of_mem _ hx)) ?_ c hc
      intro c2 hc2
      by_cases hin : acc.any (fun c => decide (a ∈ c)) = true
      · rw [if_pos hin] at hc2
        exact hacc c2 hc2
      · rw [if_neg hin] at hc2
        rcases List.mem_append.mp hc2 with h1 | h2
        · exact hacc c2 h1
        · rcases List.mem_singleton.mp h2 with rfl
          exact ⟨a, hl a (List.mem_cons_self _ _), rfl⟩
  exact key G.nodes [] (fun x hx => hx) (fun c hc => absurd hc (List.not_mem_nil c))

theorem wccs_ne_nil (G : Graph) (h : G.nodes ≠ []) : wccs G ≠ [] := by
  unfold wccs
  have key : ∀ (l : List Int) (acc : List (List Int)), acc ≠ [] →
      l.foldl (fun comps x =>
        if comps.any (fun c => decide (x ∈ c)) then comps
        else comps ++ [wccOf G x]) acc ≠ [] := by
    intro l
    induction l with
    | nil => intro acc ha; exact ha
    | cons a l ih =>
      intro acc ha
      rw [List.foldl_cons]
      apply ih
      by_cases hin : acc.any (fun c => decide (a ∈ c)) = true
      · rw [if_pos hin]; exact ha
      · rw [if_neg hin]
        intro hcontra
        exact absurd (List.append_eq_nil.mp hcontra).2 (by simp)
  cases hn : G.nodes with
  | nil => exact absurd hn h
  | cons a l =>
    rw [List.foldl_cons]
    apply key
    rw [show (List.any [] fun c => decide (a ∈ c)) = false from rfl]
    simp

theorem maxByLen_mem (l : List (List Int)) (h : l ≠ []) : maxByLen l ∈ l := by
  cases l with
  | nil => exact absurd rfl h
  | cons c cs =>
    simp only [maxByLen]
    have key : ∀ (rest : List (List Int)) (b : List Int),
        rest.foldl (fun best c2 => if best.length < c2.length then c2 else best) b = b ∨
        rest.foldl (fun best c2 => if best.length < c2.length then c2 else best) b ∈ rest := by
      intro rest
      induction rest with
      | nil => intro b; exact Or.inl rfl
      | cons c2 cs2 ih =>
        intro b
        rw [List.foldl_cons]
        rcases ih (if b.length < c2.length then c2 else b) with h1 | h2
        · rw [h1]
          by_cases hlt : b.length < c2.length
          · rw [if_pos hlt]
            exact Or.inr (List.mem_cons_self _ _)
          · rw [if_neg hlt]
            exact Or.inl rfl
        · exact Or.inr (List.mem_cons_of_mem _ h2)
    rcases key cs c with h1 | h2
    · rw [h1]; exact List.mem_cons_self _ _
    · exact List.mem_cons_of_mem _ h2

theorem selSubgraph_nodes_ne_nil (G : Graph) (h : G.nodes ≠ []) :
    (selSubgraph G).nodes ≠ [] := by
  unfold selSubgraph
  by_cases hc : isWeaklyConnected G = true
  · rw [if_pos hc]; exact h
  · rw [if_neg hc]
    rcases wccs_elem_form G (maxByLen (wccs G)) (maxByLen_mem _ (wccs_ne_nil G h)) with
      ⟨x, hxn, hcc⟩
    have hx : x ∈ (inducedSubgraph G (maxByLen (wccs G))).nodes := by
      unfold inducedSubgraph
      dsimp only
      apply List.mem_filter.mpr
      refine ⟨hxn, ?_⟩
      rw [hcc]
      exact decide_eq_true (self_mem_wccOf G x)
    exact List.ne_nil_of_mem hx

theorem selectEndpoints_eq_of_ne (G : Graph) (choices : List Nat)
    (h : ¬G.nodes.length = 0) :
    selectEndpoints G choices =
      match trials (selSubgraph G) (selSubgraph G).nodes choices 10 with
      | some (s, t) => .ok (selSubgraph G, s, t)
      | none =>
        match (selSubgraph G).nodes with
        | [] => .error .other
        | n0 :: _ => .ok (selSubgraph G, n0, (selSubgraph G).nodes.getLastD n0) := by
  unfold selectEndpoints selSubgraph
  rw [if_neg h]

/-- C6: the endpoint-selection block signals the empty-graph error (HTTP
404, the `EmptyGraphError` of the spec) exactly when the built graph has
zero nodes; every non-empty graph yields a successful selection, so the
error outcome is distinguishable from any 0-flow success. -/
theorem claim_C6_empty_graph_signal (G : Graph) (choices : List Nat) :
    (selectEndpoints G choices = .error .emptyGraph ↔ G.nodes = []) ∧
    (G.nodes ≠ [] → ∃ out, selectEndpoints G choices = .ok out) := by
  by_cases h : G.nodes.length = 0
  · have hnil : G.nodes = [] := List.length_eq_zero.mp h
    constructor
    · constructor
      · intro _; exact hnil
      · intro _
        unfold selectEndpoints
        rw [if_pos h]
    · intro hne
      exact absurd hnil hne
  · have hne : G.nodes ≠ [] := fun hc => h (by rw [hc]; rfl)
    have hsub := selSubgraph_nodes_ne_nil G hne
    have hok : ∃ out, selectEndpoints G choices = .ok out := by
      rw [selectEndpoints_eq_of_ne G choices h]
      cases htr : trials (selSubgraph G) (selSubgraph G).nodes choices 10 with
      | some st =>
        rcases st with ⟨s, t⟩
        exact ⟨(selSubgraph G, s, t), rfl⟩
      | none =>
        cases hn : (selSubgraph G).nodes with
        | nil => exact absurd hn hsub
        | cons n0 rest =>
          refine ⟨(selSubgraph G, n0, (selSubgraph G).nodes.getLastD n0), ?_⟩
          dsimp only
          rw [hn]
    constructor
    · constructor
      · intro herr
        rcases hok with ⟨out, hout⟩
        rw [hout] at herr
        cases herr
      · intro hnil
        exact absurd hnil hne
    · intro _
      exact hok

theorem claim_C6_witness :
    (selectEndpoints (Graph.mk [] []) [] = Except.error SelErr.emptyGraph ↔
      (Graph.mk [] [] : Graph).nodes = []) ∧
    (∃ out, selectEndpoints (Graph.mk [1, 2] [EdgeR.mk 1 2 5 none]) [0] =
      Except.ok out) :=
  ⟨(claim_C6_empty_graph_signal (Graph.mk [] []) []).1,
   (claim_C6_empty_graph_signal (Graph.mk [1, 2] [EdgeR.mk 1 2 5 none]) [0]).2
     (by decide)⟩

/-! ### Flow solver: breadth-first search soundness -/

theorem revOK_single (r : Residual) (s : Int) : revOK r s [s] := rfl

theorem bfsPaths_sound (r : Residual) (t s : Int) :
    ∀ (fuel : Nat) (queue : List (List Int)) (vis : List Int),
      (∀ p ∈ queue, revOK r s p ∧ p.Nodup ∧ ∀ z ∈ p, z ∈ vis) →
      ∀ p0, bfsPaths r t fuel queue vis = some p0 →
      ∃ p, p0 = p.reverse ∧ revOK r s p ∧ p.Nodup ∧ ∃ q, p = t :: q := by
  intro fuel
  induction fuel with
  | zero => intro queue vis _ p0 h; cases h
  | succ n ih =>
    intro queue vis hq p0 h
    cases queue with
    | nil => cases h
    | cons p ps =>
      cases hp : p with
      | nil =>
        exfalso
        have := (hq p (List.mem_cons_self _ _)).1
        rw [hp] at this
        exact this
      | cons x rest =>
        rw [hp] at h
        unfold bfsPaths at h
        dsimp only at h
        by_cases hx : x = t
        · rw [if_pos hx] at h
          injection h with h
          subst hx
          refine ⟨x :: rest, h.symm, ?_, ?_, rest, rfl⟩
          · have := (hq p (List.mem_cons_self _ _)).1
            rw [hp] at this
            exact this
          · have := (hq p (List.mem_cons_self _ _)).2.1
            rw [hp] at this
            exact this
        · rw [if_neg hx] at h
          refine ih _ _ ?_ p0 h
          intro p2 hp2
          rcases List.mem_append.mp hp2 with hold | hnew
          · rcases hq p2 (List.mem_cons_of_mem _ hold) with ⟨h1, h2, h3⟩
            exact ⟨h1, h2, fun z hz => List.mem_append.mpr (Or.inl (h3 z hz))⟩
          · rcases List.mem_map.mp hnew with ⟨y, hy, hyp2⟩
            have hyfacts := List.mem_filter.mp hy
            have hboth := hyfacts.2
            rw [Bool.and_eq_true] at hboth
            rcases hboth with ⟨hpos, hvis⟩
            have hpos' : 0 < rget r (x, y) := of_decide_eq_true hpos
            have hvis' : y ∉ vis := of_decide_eq_true hvis
            rcases hq p (List.mem_cons_self _ _) with ⟨h1, h2, h3⟩
            rw [hp] at h1 h2 h3
            subst hyp2
            refine ⟨?_, ?_, ?_⟩
            · exact ⟨hpos', h1⟩
            · exact List.nodup_cons.mpr ⟨fun hyin => hvis' (h3 y hyin), h2⟩
            · intro z hz
              rcases List.mem_cons.mp hz with rfl | hzin
              · exact List.mem_append.mpr (Or.inr hy)
              · exact List.mem_append.mpr (Or.inl (h3 z hzin))

theorem fwdOK_append_one (r : Residual) :
    ∀ (l : List Int) (y x : Int), fwdOK r l → l.getLast? = some y →
      0 < rget r (y, x) → fwdOK r (l ++ [x]) := by
  intro l
  induction l with
  | nil => intro y x _ hl _; cases hl
  | cons a l ih =>
    intro y x hf hl hpos
    cases l with
    | nil =>
      have hay : a = y := by
        injection hl
      subst hay
      exact ⟨hpos, trivial⟩
    | cons b q =>
      have hf' : 0 < rget r (a, b) ∧ fwdOK r (b :: q) := hf
      have hl' : (b :: q).getLast? = some y := by
        rw [List.getLast?_cons_cons] at hl
        exact hl
      exact ⟨hf'.1, ih y x hf'.2 hl' hpos⟩

theorem rev_to_fwd (r : Residual) (s : Int) :
    ∀ p : List Int, revOK r s p →
      fwdOK r p.reverse ∧ p.reverse.head? = some s ∧
      p.reverse.getLast? = p.head? := by
  intro p
  induction p with
  | nil => intro h; cases h
  | cons x rest ih =>
    intro h
    cases rest with
    | nil =>
      have hx : x = s := h
      subst hx
      exact ⟨trivial, rfl, rfl⟩
    | cons y q =>
      have h' : 0 < rget r (y, x) ∧ revOK r s (y :: q) := h
      rcases ih h'.2 with ⟨hf, hh, hl⟩
      have hrev : (x :: y :: q).reverse = (y :: q).reverse ++ [x] := by
        rw [List.reverse_cons]
      rw [hrev]
      refine ⟨?_, ?_, ?_⟩
      · apply fwdOK_append_one r _ y x hf _ h'.1
        rw [hl]
        rfl
      · rcases hne : (y :: q).reverse with _ | ⟨a, l⟩
        · rw [hne] at hh
          simp at hh
        · rw [hne] at hh
          exact hh
      · rw [List.getLast?_concat]
        rfl

/-! ### Flow solver: path arcs and bottleneck -/

theorem pathArcs_pos (r : Residual) :
    ∀ p : List Int, fwdOK r p → ∀ a ∈ pathArcs p, 0 < rget r a := by
  intro p
  induction p with
  | nil => intro _ a ha; cases ha
  | cons x rest ih =>
    intro hf a ha
    cases rest with
    | nil => cases ha
    | cons y q =>
      have hf' : 0 < rget r (x, y) ∧ fwdOK r (y :: q) := hf
      rcases List.mem_cons.mp ha with rfl | ha'
      · exact hf'.1
      · exact ih hf'.2 a ha'

theorem pathArcs_snd_mem_tail :
    ∀ (p : List Int), ∀ a ∈ pathArcs p, a.2 ∈ p.tail := by
  intro p
  induction p with
  | nil => intro a ha; cases ha
  | cons x rest ih =>
    intro a ha
    cases rest with
    | nil => cases ha
    | cons y q =>
      rcases List.mem_cons.mp ha with rfl | ha'
      · exact List.mem_cons_self _ _
      · exact List.mem_cons_of_mem _ (ih a ha')

theorem pathArcs_fst_mem :
    ∀ (p : List Int), ∀ a ∈ pathArcs p, a.1 ∈ p := by
  intro p
  induction p with
  | nil => intro a ha; cases ha
  | cons x rest ih =>
    intro a ha
    cases rest with
    | nil => cases ha
    | cons y q =>
      rcases List.mem_cons.mp ha with rfl | ha'
      · exact List.mem_cons_self _ _
      · exact List.mem_cons_of_mem _ (ih a ha')

theorem minList_le : ∀ (l : List ℚ), ∀ x ∈ l, minList l ≤ x := by
  intro l
  induction l with
  | nil => intro x hx; cases hx
  | cons a l ih =>
    intro x hx
    cases l with
    | nil =>
      rcases List.mem_singleton.mp hx with rfl
      exact le_refl _
    | cons b q =>
      rcases List.mem_cons.mp hx with rfl | hx'
      · exact min_le_left _ _
      · exact le_trans (min_le_right _ _) (ih x hx')

theorem minList_pos : ∀ (l : List ℚ), l ≠ [] → (∀ x ∈ l, 0 < x) →
    0 < minList l := by
  intro l
  induction l with
  | nil => intro h _; exact absurd rfl h
  | cons a l ih =>
    intro _ hpos
    cases l with
    | nil => exact hpos a (List.mem_singleton.mpr rfl)
    | cons b q =>
      apply lt_min
      · exact hpos a (List.mem_cons_self _ _)
      · exact ih (by simp) (fun x hx => hpos x (List.mem_cons_of_mem _ hx))

/-! ### Flow solver: residual accounting -/

theorem rget_cons (e : (Int × Int) × ℚ) (tl : Residual) (k : Int × Int) :
    rget (e :: tl) k = if e.1 = k then e.2 else rget tl k := rfl

theorem outOf_cons (s : Int) (e : (Int × Int) × ℚ) (tl : Residual) :
    outOf s (e :: tl) = (if e.1.1 = s then e.2 else 0) + outOf s tl := rfl

theorem outOf_rset_ne (s : Int) (k : Int × Int) (w : ℚ) (hk : k.1 ≠ s) :
    ∀ r : Residual, outOf s (rset r k w) = outOf s r := by
  intro r
  induction r with
  | nil =>
    unfold rset
    rw [outOf_cons, if_neg hk]
    unfold outOf
    ring
  | cons e tl ih =>
    unfold rset
    by_cases he : e.1 = k
    · rw [if_pos he, outOf_cons, outOf_cons]
      have h2 : ¬(e.1.1 = s) := by
        rw [he]
        exact hk
      rw [if_neg hk, if_neg h2]
    · rw [if_neg he, outOf_cons, outOf_cons, ih]

theorem outOf_rset_eq (s : Int) (k : Int × Int) (w : ℚ) (hk : k.1 = s) :
    ∀ r : Residual, outOf s (rset r k w) = outOf s r - rget r k + w := by
  intro r
  induction r with
  | nil =>
    unfold rset rget outOf
    rw [if_pos hk]
    unfold outOf
    ring
  | cons e tl ih =>
    unfold rset
    by_cases he : e.1 = k
    · rw [if_pos he, outOf_cons, outOf_cons, rget_cons, if_pos he]
      have h2 : e.1.1 = s := by rw [he]; exact hk
      rw [if_pos hk, if_pos h2]
      ring
    · rw [if_neg he, outOf_cons, outOf_cons, rget_cons, if_neg he, ih]
      ring

theorem mem_rset : ∀ (r : Residual) (k : Int × Int) (w : ℚ)
    (e : (Int × Int) × ℚ), e ∈ rset r k w → e = (k, w) ∨ e ∈ r := by
  intro r k w e
  induction r with
  | nil =>
    intro he
    unfold rset at he
    rcases List.mem_singleton.mp he with rfl
    exact Or.inl rfl
  | cons e2 tl ih =>
    intro he
    unfold rset at he
    by_cases h2 : e2.1 = k
    · rw [if_pos h2] at he
      rcases List.mem_cons.mp he with rfl | hin
      · exact Or.inl rfl
      · exact Or.inr (List.mem_cons_of_mem _ hin)
    · rw [if_neg h2] at he
      rcases List.mem_cons.mp he with rfl | hin
      · exact Or.inr (List.mem_cons_self _ _)
      · rcases ih hin with h | h
        · exact Or.inl h
        · exact Or.inr (List.mem_cons_of_mem _ h)

theorem outOf_nonneg (s : Int) :
    ∀ r : Residual, (∀ e ∈ r, e.1.1 = s → 0 ≤ e.2) → 0 ≤ outOf s r := by
  intro r
  induction r with
  | nil => intro _; exact le_refl 0
  | cons e tl ih =>
    intro h
    rw [outOf_cons]
    have h2 : 0 ≤ outOf s tl := ih (fun e2 he2 => h e2 (List.mem_cons_of_mem _ he2))
    by_cases he : e.1.1 = s
    · rw [if_pos he]
      have := h e (List.mem_cons_self _ _) he
      linarith
    · rw [if_neg he]
      linarith

/-- Pushing along arcs that neither leave nor enter `s` does not change the
residual out-capacity of `s`. -/
theorem augmentArcs_outOf_noS (s : Int) (d : ℚ) :
    ∀ (arcs : List (Int × Int)) (r : Residual),
      (∀ a ∈ arcs, a.1 ≠ s ∧ a.2 ≠ s) →
      outOf s (augmentArcs d arcs r) = outOf s r := by
  intro arcs
  induction arcs with
  | nil => intro r _; rfl
  | cons a tl ih =>
    intro r hno
    rcases a with ⟨x, y⟩
    have hxy := hno (x, y) (List.mem_cons_self _ _)
    unfold augmentArcs
    rw [ih _ (fun a2 ha2 => hno a2 (List.mem_cons_of_mem _ ha2))]
    rw [outOf_rset_ne s (y, x) _ hxy.2, outOf_rset_ne s (x, y) _ hxy.1]

theorem augmentArcs_I1_noS (s : Int) (d : ℚ) :
    ∀ (arcs : List (Int × Int)) (r : Residual),
      (∀ a ∈ arcs, a.1 ≠ s ∧ a.2 ≠ s) →
      (∀ e ∈ r, e.1.1 = s → 0 ≤ e.2) →
      ∀ e ∈ augmentArcs d arcs r, e.1.1 = s → 0 ≤ e.2 := by
  intro arcs
  induction arcs with
  | nil => intro r _ hI e he; exact hI e he
  | cons a tl ih =>
    intro r hno hI e he
    rcases a with ⟨x, y⟩
    have hxy := hno (x, y) (List.mem_cons_self _ _)
    unfold augmentArcs at he
    refine ih _ (fun a2 ha2 => hno a2 (List.mem_cons_of_mem _ ha2)) ?_ e he
    intro e2 he2 hk2
    rcases mem_rset _ _ _ e2 he2 with rfl | he2'
    · exact absurd hk2 hxy.2
    · rcases mem_rset _ _ _ e2 he2' with rfl | he2''
      · exact absurd hk2 hxy.1
      · exact hI e2 he2'' hk2

theorem rget_pos_mem (k : Int × Int) :
    ∀ r : Residual, 0 < rget r k → ∃ w, (k, w) ∈ r ∧ rget r k = w := by
  intro r
  induction r with
  | nil => intro h; exact absurd h (by unfold rget; exact lt_irrefl 0)
  | cons e tl ih =>
    intro h
    rw [rget_cons] at h
    by_cases he : e.1 = k
    · rw [if_pos he] at h
      refine ⟨e.2, ?_, ?_⟩
      · rw [← he]
        exact List.mem_cons_self _ _
      · rw [rget_cons, if_pos he]
    · rw [if_neg he] at h
      rcases ih h with ⟨w, hmem, hval⟩
      refine ⟨w, List.mem_cons_of_mem _ hmem, ?_⟩
      rw [rget_cons, if_neg he]
      exact hval

/-- Pushing `d` along a whole augmenting path from `s` decreases the
residual out-capacity of `s` by exactly `d`, and keeps the out-entries
non-negative provided `d` is at most the first arc's residual. -/
theorem augment_path_effect (s p2 : Int) (rest : List Int) (d : ℚ)
    (r : Residual)
    (hp2 : p2 ≠ s)
    (hno : ∀ a ∈ pathArcs (p2 :: rest), a.1 ≠ s ∧ a.2 ≠ s)
    (hd : d ≤ rget r (s, p2))
    (hI : ∀ e ∈ r, e.1.1 = s → 0 ≤ e.2) :
    outOf s (augmentArcs d (pathArcs (s :: p2 :: rest)) r) = outOf s r - d ∧
    (∀ e ∈ augmentArcs d (pathArcs (s :: p2 :: rest)) r, e.1.1 = s → 0 ≤ e.2) := by
  have harcs : pathArcs (s :: p2 :: rest) = (s, p2) :: pathArcs (p2 :: rest) := rfl
  rw [harcs]
  unfold augmentArcs
  set r1 := rset r (s, p2) (rget r (s, p2) - d) with hr1
  set r2 := rset r1 (p2, s) (rget r1 (p2, s) + d) with hr2
  have hI1 : ∀ e ∈ r1, e.1.1 = s → 0 ≤ e.2 := by
    intro e he hk
    rcases mem_rset _ _ _ e he with rfl | he'
    · dsimp only
      linarith
    · exact hI e he' hk
  have hI2 : ∀ e ∈ r2, e.1.1 = s → 0 ≤ e.2 := by
    intro e he hk
    rcases mem_rset _ _ _ e he with rfl | he'
    · exact absurd hk hp2
    · exact hI1 e he' hk
  have hout1 : outOf s r1 = outOf s r - d := by
    rw [hr1, outOf_rset_eq s (s, p2) _ rfl]
    ring
  have hout2 : outOf s r2 = outOf s r - d := by
    rw [hr2, outOf_rset_ne s (p2, s) _ hp2, hout1]
  constructor
  · rw [augmentArcs_outOf_noS s d _ r2 hno]
    exact hout2
  · exact augmentArcs_I1_noS s d _ r2 hno hI2

/-! ### Flow solver: loop invariant and the flow bound -/

theorem findAugPath_sound (r : Residual) (s t : Int) (p0 : List Int)
    (h : findAugPath r s t = some p0) :
    fwdOK r p0 ∧ p0.head? = some s ∧ p0.getLast? = some t ∧ p0.Nodup := by
  unfold findAugPath at h
  have hq : ∀ p ∈ [[s]], revOK r s p ∧ p.Nodup ∧ ∀ z ∈ p, z ∈ [s] := by
    intro p hp
    rcases List.mem_singleton.mp hp with rfl
    refine ⟨revOK_single r s, List.nodup_singleton s, ?_⟩
    intro z hz
    rcases List.mem_singleton.mp hz with rfl
    exact List.mem_singleton.mpr rfl
  rcases bfsPaths_sound r t s (2 * r.length + 2) [[s]] [s] hq p0 h with
    ⟨p, rfl, hrev, hnd, q, rfl⟩
  rcases rev_to_fwd r s (t :: q) hrev with ⟨hf, hh, hl⟩
  refine ⟨hf, hh, ?_, List.nodup_reverse.mpr hnd⟩
  rw [hl]
  rfl

theorem ekLoop_acc_of_none (s t : Int) (r : Residual) (acc : ℚ)
    (h : findAugPath r s t = none) :
    ∀ fuel : Nat, ekLoop s t fuel r acc = acc := by
  intro fuel
  cases fuel with
  | zero => rfl
  | succ n =>
    unfold ekLoop
    rw [h]

theorem ekLoop_bound (s t : Int) (hst : s ≠ t) :
    ∀ (fuel : Nat) (r : Residual) (acc : ℚ),
      (∀ e ∈ r, e.1.1 = s → 0 ≤ e.2) → 0 ≤ acc →
      0 ≤ ekLoop s t fuel r acc ∧ ekLoop s t fuel r acc ≤ acc + outOf s r := by
  intro fuel
  induction fuel with
  | zero =>
    intro r acc hI hacc
    have hout := outOf_nonneg s r hI
    unfold ekLoop
    exact ⟨hacc, by linarith⟩
  | succ n ih =>
    intro r acc hI hacc
    unfold ekLoop
    cases hpath : findAugPath r s t with
    | none =>
      have hout := outOf_nonneg s r hI
      exact ⟨hacc, by linarith⟩
    | some p0 =>
      dsimp only
      rcases findAugPath_sound r s t p0 hpath with ⟨hf, hh, hl, hnd⟩
      cases p0 with
      | nil => cases hh
      | cons a tail =>
        have ha : a = s := by
          injection hh
        subst ha
        cases tail with
        | nil =>
          exfalso
          apply hst
          injection hl
        | cons p2 rest =>
          have harcs : pathArcs (a :: p2 :: rest) = (a, p2) :: pathArcs (p2 :: rest) := rfl
          have hposall : ∀ ar ∈ pathArcs (a :: p2 :: rest), 0 < rget r ar :=
            pathArcs_pos r _ hf
          have hsnotin : a ∉ p2 :: rest := (List.nodup_cons.mp hnd).1
          have hp2 : p2 ≠ a := by
            intro heq
            exact hsnotin (heq ▸ List.mem_cons_self _ _)
          have hno : ∀ ar ∈ pathArcs (p2 :: rest), ar.1 ≠ a ∧ ar.2 ≠ a := by
            intro ar har
            constructor
            · intro heq
              exact hsnotin (heq ▸ pathArcs_fst_mem _ ar har)
            · intro heq
              exact hsnotin (heq ▸ List.mem_cons_of_mem _ (pathArcs_snd_mem_tail _ ar har))
          have hmapne : (pathArcs (a :: p2 :: rest)).map (rget r) ≠ [] := by
            rw [harcs]
            simp
          have hdpos : 0 < minList ((pathArcs (a :: p2 :: rest)).map (rget r)) := by
            apply minList_pos _ hmapne
            intro x hx
            rcases List.mem_map.mp hx with ⟨ar, har, rfl⟩
            exact hposall ar har
          have hdle : minList ((pathArcs (a :: p2 :: rest)).map (rget r)) ≤
              rget r (a, p2) := by
            apply minList_le
            apply List.mem_map.mpr
            refine ⟨(a, p2), ?_, rfl⟩
            rw [harcs]
            exact List.mem_cons_self _ _
          rcases augment_path_effect a p2 rest
              (minList ((pathArcs (a :: p2 :: rest)).map (rget r))) r hp2 hno hdle hI with
            ⟨hout, hI2⟩
          have hrec := ih
            (augmentArcs (minList ((pathArcs (a :: p2 :: rest)).map (rget r)))
              (pathArcs (a :: p2 :: rest)) r)
            (acc + minList ((pathArcs (a :: p2 :: rest)).map (rget r)))
            hI2 (by linarith)
          refine ⟨hrec.1, ?_⟩
          have h2 := hrec.2
          rw [hout] at h2
          linarith

theorem outOf_initR_list (s : Int) :
    ∀ l : List EdgeR,
      outOf s (l.map (fun e => ((e.u, e.v), e.cap))) =
      (l.filter (fun e => decide (e.u = s))).foldr (fun e a => e.cap + a) 0 := by
  intro l
  induction l with
  | nil => rfl
  | cons e tl ih =>
    rw [List.map_cons, outOf_cons]
    by_cases he : e.u = s
    · rw [if_pos he, List.filter_cons_of_pos (by simpa using he), List.foldr_cons, ih]
    · rw [if_neg he, List.filter_cons_of_neg (by simpa using he), ih, zero_add]

theorem outOf_initR (G : Graph) (s : Int) : outOf s (initR G) = outCapSum G s :=
  outOf_initR_list s G.edges

theorem initR_I1 (G : Graph) (s : Int) (hc : ∀ e ∈ G.edges, 0 ≤ e.cap) :
    ∀ en ∈ initR G, en.1.1 = s → 0 ≤ en.2 := by
  intro en hen _
  rcases List.mem_map.mp hen with ⟨e, he, rfl⟩
  exact hc e he

theorem outCapSum_nonneg (G : Graph) (s : Int)
    (hc : ∀ e ∈ G.edges, 0 ≤ e.cap) : 0 ≤ outCapSum G s := by
  rw [← outOf_initR G s]
  exact outOf_nonneg s _ (initR_I1 G s hc)

theorem rget_initR_pos (G : Graph) (x y : Int) :
    0 < rget (initR G) (x, y) → edgeRel G x y := by
  unfold initR edgeRel
  have key : ∀ l : List EdgeR,
      0 < rget (l.map (fun e => ((e.u, e.v), e.cap))) (x, y) →
      ∃ e ∈ l, e.u = x ∧ e.v = y := by
    intro l
    induction l with
    | nil =>
      intro h
      exact absurd h (lt_irrefl 0)
    | cons e tl ih =>
      intro h
      rw [List.map_cons, rget_cons] at h
      by_cases he : ((e.u, e.v), e.cap).1 = (x, y)
      · have hp := Prod.mk.injEq .. ▸ he
        refine ⟨e, List.mem_cons_self _ _, ?_⟩
        exact Prod.mk.injEq e.u e.v x y ▸ he
      · rw [if_neg he] at h
        rcases ih h with ⟨e2, he2, hp⟩
        exact ⟨e2, List.mem_cons_of_mem _ he2, hp⟩
  exact key G.edges

theorem fwd_hasPath (G : Graph) (t : Int) :
    ∀ p : List Int, fwdOK (initR G) p → ∀ x, p.head? = some x →
      p.getLast? = some t → hasPath G x t := by
  intro p
  induction p with
  | nil => intro _ x hh _; cases hh
  | cons a tail ih =>
    intro hf x hh hl
    have hax : a = x := by
      injection hh
    subst hax
    cases tail with
    | nil =>
      have hat : a = t := by
        injection hl
      subst hat
      exact Relation.ReflTransGen.refl
    | cons b q =>
      have hf' : 0 < rget (initR G) (a, b) ∧ fwdOK (initR G) (b :: q) := hf
      have hedge : edgeRel G a b := rget_initR_pos G a b hf'.1
      have htail : hasPath G b t := by
        apply ih hf'.2 b rfl
        rw [List.getLast?_cons_cons] at hl
        exact hl
      exact Relation.ReflTransGen.head hedge htail

/-- C7: for endpoints present in the graph (capacities being non-negative,
per the data model), the computed flow is non-negative and bounded by the
total capacity leaving the source, and it is exactly 0 whenever no directed
path connects source to sink. -/
theorem claim_C7_flow_bounds (G : Graph) (s t : Int)
    (hs : s ∈ G.nodes) (ht : t ∈ G.nodes)
    (hc : ∀ e ∈ G.edges, 0 ≤ e.cap) :
    0 ≤ calculate_max_flow G s t ∧
    calculate_max_flow G s t ≤ outCapSum G s ∧
    (¬hasPath G s t → calculate_max_flow G s t = 0) := by
  unfold calculate_max_flow nxMaximumFlowValue
  rw [if_pos ⟨hs, ht⟩]
  by_cases hst : s = t
  · rw [if_pos hst]
    exact ⟨le_refl 0, outCapSum_nonneg G s hc, fun _ => rfl⟩
  · rw [if_neg hst]
    dsimp only
    unfold ekRun
    have hbound := ekLoop_bound s t hst
      ((G.nodes.length + 1) * (G.edges.length + 1)) (initR G) 0
      (initR_I1 G s hc) (le_refl 0)
    refine ⟨hbound.1, ?_, ?_⟩
    · have h2 := hbound.2
      rw [zero_add, outOf_initR G s] at h2
      exact h2
    · intro hnp
      have hnone : findAugPath (initR G) s t = none := by
        cases hfp : findAugPath (initR G) s t with
        | none => rfl
        | some p0 =>
          exfalso
          rcases findAugPath_sound (initR G) s t p0 hfp with ⟨hf, hh, hl, _⟩
          exact hnp (fwd_hasPath G t p0 hf s hh hl)
      exact ekLoop_acc_of_none s t (initR G) 0 hnone _

theorem claim_C7_witness :
    (1 : Int) ∈ (Graph.mk [1, 2] [EdgeR.mk 1 2 5 none]).nodes ∧
    (0 ≤ calculate_max_flow (Graph.mk [1, 2] [EdgeR.mk 1 2 5 none]) 1 2 ∧
     calculate_max_flow (Graph.mk [1, 2] [EdgeR.mk 1 2 5 none]) 1 2 ≤
       outCapSum (Graph.mk [1, 2] [EdgeR.mk 1 2 5 none]) 1 ∧
     (¬hasPath (Graph.mk [1, 2] [EdgeR.mk 1 2 5 none]) 1 2 →
       calculate_max_flow (Graph.mk [1, 2] [EdgeR.mk 1 2 5 none]) 1 2 = 0)) :=
  ⟨by decide,
   claim_C7_flow_bounds (Graph.mk [1, 2] [EdgeR.mk 1 2 5 none]) 1 2
     (by decide) (by decide) (by decide)⟩

/-! ### Claims about `calculate_max_flow` guards -/

/-- C5: for every graph and every pair of node identifiers, if source or
sink is not a node of the graph, `calculate_max_flow` returns exactly 0 (and,
the guard firing before the library call, no exception can arise). -/
theorem claim_C5_missing_endpoint_zero (G : Graph) (s t : Int)
    (h : s ∉ G.nodes ∨ t ∉ G.nodes) : calculate_max_flow G s t = 0 := by
  unfold calculate_max_flow
  rw [if_neg]
  tauto

theorem claim_C5_witness :
    ((7 : Int) ∉ (Graph.mk [1, 2] [⟨1, 2, 5, none⟩]).nodes ∨ (1 : Int) ∉
      (Graph.mk [1, 2] [⟨1, 2, 5, none⟩]).nodes) ∧
    calculate_max_flow (Graph.mk [1, 2] [⟨1, 2, 5, none⟩]) 7 1 = 0 :=
  ⟨Or.inl (by decide),
   claim_C5_missing_endpoint_zero (Graph.mk [1, 2] [⟨1, 2, 5, none⟩]) 7 1
     (Or.inl (by decide))⟩

/-- C10: when source and sink are the same node of the graph, the library
call raises (`NetworkXError`), the handler catches it, and
`calculate_max_flow` returns 0. -/
theorem claim_C10_same_source_sink_zero (G : Graph) (s : Int)
    (h : s ∈ G.nodes) : calculate_max_flow G s s = 0 := by
  unfold calculate_max_flow nxMaximumFlowValue
  rw [if_pos ⟨h, h⟩, if_pos rfl]

theorem claim_C10_witness :
    (1 : Int) ∈ (Graph.mk [1, 2] [⟨1, 2, 5, none⟩]).nodes ∧
    calculate_max_flow (Graph.mk [1, 2] [⟨1, 2, 5, none⟩]) 1 1 = 0 :=
  ⟨by decide,
   claim_C10_same_source_sink_zero (Graph.mk [1, 2] [⟨1, 2, 5, none⟩]) 1 (by decide)⟩

/-! ### Claim about the derived metrics -/

/-- `round2` is the identity on values whose hundredfold is an integer. -/
theorem round2_eq_of_mul_hundred (q : ℚ) (k : ℤ) (h : q * 100 = (k : ℚ)) :
    round2 q = (k : ℚ) / 100 := by
  unfold round2
  rw [h]
  dsimp only
  rw [Int.floor_intCast]
  norm_num

/-- C8: `clearance_time_hours` is 24.0 for flow ≤ 0 and `1_000_000 / flow`
otherwise (rounded to two decimals in the response), `gridlock_risk` is
`"CRITICAL"` below 1000 and `"MODERATE"` otherwise; concrete cases
flow = 5000 ⇒ (200.0, MODERATE), flow = 500 ⇒ (2000.0, CRITICAL),
flow = 0 ⇒ 24.0. -/
theorem claim_C8_derived_metrics (f : ℚ) :
    (f ≤ 0 → clearance_time_hours f = 24) ∧
    (0 < f → clearance_time_hours f = 1000000 / f) ∧
    (f < 1000 → gridlock_risk f = "CRITICAL") ∧
    (1000 ≤ f → gridlock_risk f = "MODERATE") ∧
    reported_clearance 5000 = 200 ∧ gridlock_risk 5000 = "MODERATE" ∧
    reported_clearance 500 = 2000 ∧ gridlock_risk 500 = "CRITICAL" ∧
    reported_clearance 0 = 24 := by
  refine ⟨?_, ?_, ?_, ?_, ?_, by decide, ?_, by decide, ?_⟩
  · intro h
    unfold clearance_time_hours
    rw [if_neg (by linarith)]
  · intro h
    unfold clearance_time_hours
    rw [if_pos h]
  · intro h
    unfold gridlock_risk
    rw [if_pos h]
  · intro h
    unfold gridlock_risk
    rw [if_neg (by linarith)]
  · unfold reported_clearance
    rw [show clearance_time_hours 5000 = 200 by
      unfold clearance_time_hours
      norm_num]
    rw [round2_eq_of_mul_hundred 200 20000 (by norm_num)]
    norm_num
  · unfold reported_clearance
    rw [show clearance_time_hours 500 = 2000 by
      unfold clearance_time_hours
      norm_num]
    rw [round2_eq_of_mul_hundred 2000 200000 (by norm_num)]
    norm_num
  · unfold reported_clearance
    rw [show clearance_time_hours 0 = 24 by
      unfold clearance_time_hours
      norm_num]
    rw [round2_eq_of_mul_hundred 24 2400 (by norm_num)]
    norm_num

theorem claim_C8_witness :
    gridlock_risk 500 = "CRITICAL" ∧ clearance_time_hours 500 = 1000000 / 500 :=
  ⟨(claim_C8_derived_metrics 500).2.2.1 (by norm_num),
   (claim_C8_derived_metrics 500).2.1 (by norm_num)⟩

/-! ### Baseline orientation -/

/-- In the baseline scenario the contraflow branch is dead: a segment with
both endpoints present maps to `(source, target)` untouched. -/
theorem processSeg_baseline (region : String) (seg : Seg) :
    processSeg "baseline" region seg =
      match seg.source, seg.target with
      | some s, some t => .ok (some ((s, t), resolvedCap seg, seg.cost_time))
      | _, _ => .ok none := by
  unfold processSeg
  cases seg.source <;> cases seg.target <;> simp

/-- Every edge of `addEdge G u v c ct` either reuses an ordered pair already
present in `G` or is the pair `(u, v)`. -/
theorem addEdge_pair_mem (G : Graph) (u v : Int) (c : ℚ) (ct : Option ℚ) :
    ∀ e ∈ (addEdge G u v c ct).edges,
      (∃ e0 ∈ G.edges, e0.u = e.u ∧ e0.v = e.v) ∨ (e.u = u ∧ e.v = v) := by
  intro e he
  unfold addEdge at he
  by_cases h : G.edges.any (fun e => decide (e.u = u ∧ e.v = v)) = true
  · rw [if_pos h] at he
    dsimp only at he
    rcases List.mem_map.mp he with ⟨e0, he0, heq⟩
    left
    refine ⟨e0, he0, ?_⟩
    by_cases hm : e0.u = u ∧ e0.v = v
    · rw [if_pos hm] at heq
      cases heq
      exact ⟨rfl, rfl⟩
    · rw [if_neg hm] at heq
      cases heq
      exact ⟨rfl, rfl⟩
  · rw [if_neg h] at he
    dsimp only at he
    rcases List.mem_append.mp he with h0 | h1
    · exact Or.inl ⟨e, h0, rfl, rfl⟩
    · rcases List.mem_singleton.mp h1 with rfl
      exact Or.inr ⟨rfl, rfl⟩

/-- Provenance of the edges of a built graph: each comes from the initial
accumulator or from a segment that `processSeg` mapped to its ordered pair. -/
theorem buildG_edge_src (scen reg : String) :
    ∀ (segs : List Seg) (G0 G : Graph), buildG scen reg segs G0 = .ok G →
    ∀ e ∈ G.edges,
      (∃ e0 ∈ G0.edges, e0.u = e.u ∧ e0.v = e.v) ∨
      ∃ seg ∈ segs, ∃ c ct, processSeg scen reg seg = .ok (some ((e.u, e.v), c, ct)) := by
  intro segs
  induction segs with
  | nil =>
    intro G0 G hb e he
    cases hb
    exact Or.inl ⟨e, he, rfl, rfl⟩
  | cons seg tl ih =>
    intro G0 G hb e he
    unfold buildG at hb
    cases hp : processSeg scen reg seg with
    | error err => rw [hp] at hb; cases hb
    | ok res =>
      rw [hp] at hb
      cases res with
      | none =>
        rcases ih G0 G hb e he with h0 | ⟨s, hs, hmap⟩
        · exact Or.inl h0
        · exact Or.inr ⟨s, List.mem_cons_of_mem _ hs, hmap⟩
      | some dat =>
        rcases dat with ⟨⟨u, v⟩, c, ct⟩
        rcases ih (addEdge G0 u v c ct) G hb e he with h0 | ⟨s, hs, hmap⟩
        · rcases h0 with ⟨e0, he0, hpair⟩
          rcases addEdge_pair_mem G0 u v c ct e0 he0 with ⟨e1, he1, h1⟩ | ⟨hu, hv⟩
          · exact Or.inl ⟨e1, he1, h1.1.trans hpair.1, h1.2.trans hpair.2⟩
          · refine Or.inr ⟨seg, List.mem_cons_self _ _, c, ct, ?_⟩
            rw [hp, ← hpair.1, ← hpair.2, hu, hv]
        · exact Or.inr ⟨s, List.mem_cons_of_mem _ hs, hmap⟩

/-- C3: in the baseline scenario no reversal happens — per segment, the
inserted edge is exactly `(source_node, target_node)`; consequently every
edge of a baseline-built graph carries the original orientation of one of
its segments. -/
theorem claim_C3_baseline_never_reverses (region : String) :
    (∀ (seg : Seg) (u v : Int), seg.source = some u → seg.target = some v →
      processSeg "baseline" region seg =
        .ok (some ((u, v), resolvedCap seg, seg.cost_time))) ∧
    (∀ (segs : List Seg) (G : Graph),
      generate_network_graph segs "baseline" region = .ok G →
      ∀ e ∈ G.edges, ∃ seg ∈ segs,
        seg.source = some e.u ∧ seg.target = some e.v) := by
  have hinv : ∀ (seg : Seg) (x y : Int) (c : ℚ) (ct : Option ℚ),
      processSeg "baseline" region seg = .ok (some ((x, y), c, ct)) →
      seg.source = some x ∧ seg.target = some y := by
    intro seg x y c ct h
    rw [processSeg_baseline] at h
    cases hs : seg.source with
    | none =>
      rw [hs] at h
      cases ht : seg.target <;> rw [ht] at h <;> simp at h
    | some s =>
      cases ht : seg.target with
      | none =>
        rw [hs, ht] at h
        simp at h
      | some t =>
        rw [hs, ht] at h
        simp only [Except.ok.injEq, Option.some.injEq, Prod.mk.injEq] at h
        rcases h with ⟨⟨h1, h2⟩, _⟩
        exact ⟨by rw [h1], by rw [h2]⟩
  constructor
  · intro seg u v hs ht
    rw [processSeg_baseline, hs, ht]
  · intro segs G hb e he
    rcases buildG_edge_src "baseline" region segs { nodes := [], edges := [] } G hb e he with
      ⟨e0, he0, _⟩ | ⟨seg, hmem, c, ct, hmap⟩
    · cases he0
    · exact ⟨seg, hmem, hinv seg e.u e.v c ct hmap⟩

theorem claim_C3_witness :
    processSeg "baseline" "Tampa Bay"
        (Seg.mk (some 1) (some 2) (some 3600) (some 10) none none) =
      .ok (some ((1, 2),
        resolvedCap (Seg.mk (some 1) (some 2) (some 3600) (some 10) none none),
        (Seg.mk (some 1) (some 2) (some 3600) (some 10) none none).cost_time)) :=
  (claim_C3_baseline_never_reverses "Tampa Bay").1
    (Seg.mk (some 1) (some 2) (some 3600) (some 10) none none) 1 2 rfl rfl

/-! ### Edge accumulation: capacity summation and cost frame -/

theorem addEdge_eq (G : Graph) (u v : Int) (c : ℚ) (ct : Option ℚ) :
    addEdge G u v c ct =
      if G.edges.any (fun e => decide (e.u = u ∧ e.v = v)) then
        { G with edges := G.edges.map (capUpd u v c) }
      else
        { nodes := addNode (addNode G.nodes u) v
          edges := G.edges ++ [{ u := u, v := v, cap := c, cost := ct }] } := rfl

theorem capOf_nil (u v : Int) : capOf [] u v = none := rfl

theorem capOf_cons (e : EdgeR) (tl : List EdgeR) (u v : Int) :
    capOf (e :: tl) u v =
      if e.u = u ∧ e.v = v then some e.cap else capOf tl u v := rfl

theorem costOf_nil (u v : Int) : costOf [] u v = none := rfl

theorem costOf_cons (e : EdgeR) (tl : List EdgeR) (u v : Int) :
    costOf (e :: tl) u v =
      if e.u = u ∧ e.v = v then some e.cost else costOf tl u v := rfl

theorem capUpd_u (u v : Int) (c : ℚ) (e : EdgeR) : (capUpd u v c e).u = e.u := by
  unfold capUpd
  split <;> rfl

theorem capUpd_v (u v : Int) (c : ℚ) (e : EdgeR) : (capUpd u v c e).v = e.v := by
  unfold capUpd
  split <;> rfl

theorem capUpd_cost (u v : Int) (c : ℚ) (e : EdgeR) :
    (capUpd u v c e).cost = e.cost := by
  unfold capUpd
  split <;> rfl

theorem capOf_isSome_iff_any (u v : Int) :
    ∀ l : List EdgeR,
      (capOf l u v).isSome = l.any (fun e => decide (e.u = u ∧ e.v = v)) := by
  intro l
  induction l with
  | nil => rfl
  | cons e tl ih =>
    rw [capOf_cons, List.any_cons]
    by_cases h : e.u = u ∧ e.v = v
    · simp [h]
    · simp [h, ih]

theorem costOf_isSome_eq_capOf_isSome (u v : Int) :
    ∀ l : List EdgeR, (costOf l u v).isSome = (capOf l u v).isSome := by
  intro l
  induction l with
  | nil => rfl
  | cons e tl ih =>
    rw [capOf_cons, costOf_cons]
    by_cases h : e.u = u ∧ e.v = v
    · rw [if_pos h, if_pos h]
      rfl
    · rw [if_neg h, if_neg h, ih]

theorem capOf_map_capUpd_same (u v : Int) (c : ℚ) :
    ∀ l : List EdgeR,
      capOf (l.map (capUpd u v c)) u v = (capOf l u v).map (fun w => w + c) := by
  intro l
  induction l with
  | nil => rfl
  | cons e tl ih =>
    rw [List.map_cons, capOf_cons, capOf_cons, capUpd_u, capUpd_v]
    by_cases h : e.u = u ∧ e.v = v
    · rw [if_pos h, if_pos h]
      have hcap : (capUpd u v c e).cap = e.cap + c := by
        unfold capUpd
        rw [if_pos h]
      rw [hcap]
      rfl
    · rw [if_neg h, if_neg h, ih]

theorem capOf_map_capUpd_other (u v x y : Int) (c : ℚ) (hxy : ¬(x = u ∧ y = v)) :
    ∀ l : List EdgeR, capOf (l.map (capUpd u v c)) x y = capOf l x y := by
  intro l
  induction l with
  | nil => rfl
  | cons e tl ih =>
    rw [List.map_cons, capOf_cons, capOf_cons, capUpd_u, capUpd_v]
    by_cases h2 : e.u = x ∧ e.v = y
    · rw [if_pos h2, if_pos h2]
      have hne : ¬(e.u = u ∧ e.v = v) := by
        rintro ⟨hu, hv⟩
        exact hxy ⟨h2.1.symm.trans hu, h2.2.symm.trans hv⟩
      have hcap : (capUpd u v c e).cap = e.cap := by
        unfold capUpd
        rw [if_neg hne]
      rw [hcap]
    · rw [if_neg h2, if_neg h2, ih]

theorem costOf_map_capUpd (u v x y : Int) (c : ℚ) :
    ∀ l : List EdgeR, costOf (l.map (capUpd u v c)) x y = costOf l x y := by
  intro l
  induction l with
  | nil => rfl
  | cons e tl ih =>
    rw [List.map_cons, costOf_cons, costOf_cons, capUpd_u, capUpd_v, capUpd_cost]
    by_cases h2 : e.u = x ∧ e.v = y
    · rw [if_pos h2, if_pos h2]
    · rw [if_neg h2, if_neg h2, ih]

theorem capOf_append (x y : Int) :
    ∀ l1 l2 : List EdgeR, capOf (l1 ++ l2) x y =
      match capOf l1 x y with
      | some w => some w
      | none => capOf l2 x y := by
  intro l1 l2
  induction l1 with
  | nil => rfl
  | cons e tl ih =>
    rw [List.cons_append, capOf_cons, capOf_cons]
    by_cases h : e.u = x ∧ e.v = y
    · rw [if_pos h, if_pos h]
    · rw [if_neg h, if_neg h, ih]

theorem costOf_append (x y : Int) :
    ∀ l1 l2 : List EdgeR, costOf (l1 ++ l2) x y =
      match costOf l1 x y with
      | some w => some w
      | none => costOf l2 x y := by
  intro l1 l2
  induction l1 with
  | nil => rfl
  | cons e tl ih =>
    rw [List.cons_append, costOf_cons, costOf_cons]
    by_cases h : e.u = x ∧ e.v = y
    · rw [if_pos h, if_pos h]
    · rw [if_neg h, if_neg h, ih]

/-- Effect of one edge insertion on accumulated capacity. -/
theorem capOfD_addEdge (G : Graph) (u v x y : Int) (c : ℚ) (ct : Option ℚ) :
    capOfD (addEdge G u v c ct) x y =
      capOfD G x y + (if x = u ∧ y = v then c else 0) := by
  rw [addEdge_eq]
  by_cases hex : G.edges.any (fun e => decide (e.u = u ∧ e.v = v)) = true
  · rw [if_pos hex]
    by_cases hxy : x = u ∧ y = v
    · rcases hxy with ⟨rfl, rfl⟩
      unfold capOfD
      dsimp only
      rw [capOf_map_capUpd_same]
      rw [← capOf_isSome_iff_any x y G.edges] at hex
      rcases Option.isSome_iff_exists.mp hex with ⟨w, hw⟩
      rw [hw]
      simp
    · unfold capOfD
      dsimp only
      rw [capOf_map_capUpd_other u v x y c hxy, if_neg hxy, add_zero]
  · rw [if_neg hex]
    have hnone : capOf G.edges u v = none := by
      cases h : capOf G.edges u v with
      | none => rfl
      | some w =>
        exfalso
        apply hex
        rw [← capOf_isSome_iff_any u v G.edges, h]
        rfl
    by_cases hxy : x = u ∧ y = v
    · rcases hxy with ⟨rfl, rfl⟩
      unfold capOfD
      dsimp only
      rw [capOf_append, hnone, capOf_cons]
      rw [if_pos ⟨rfl, rfl⟩]
      simp [hnone]
    · unfold capOfD
      dsimp only
      rw [capOf_append]
      have hne : ¬((u : Int) = x ∧ (v : Int) = y) := by
        rintro ⟨rfl, rfl⟩
        exact hxy ⟨rfl, rfl⟩
      cases hc : capOf G.edges x y with
      | some w => simp [hxy]
      | none =>
        rw [capOf_cons]
        rw [if_neg (by simpa using hne), capOf_nil]
        simp [hxy]

/-- Effect of one edge insertion on the cost annotation: existing costs are
never modified; a new edge records the inserted cost. -/
theorem costOf_addEdge (G : Graph) (u v x y : Int) (c : ℚ) (ct : Option ℚ) :
    costOf (addEdge G u v c ct).edges x y =
      match costOf G.edges x y with
      | some c0 => some c0
      | none => if x = u ∧ y = v then some ct else none := by
  rw [addEdge_eq]
  by_cases hex : G.edges.any (fun e => decide (e.u = u ∧ e.v = v)) = true
  · rw [if_pos hex]
    dsimp only
    rw [costOf_map_capUpd]
    cases hc : costOf G.edges x y with
    | some c0 => rfl
    | none =>
      by_cases hxy : x = u ∧ y = v
      · exfalso
        rcases hxy with ⟨rfl, rfl⟩
        have h1 := capOf_isSome_iff_any x y G.edges
        rw [hex] at h1
        rw [← costOf_isSome_eq_capOf_isSome, hc] at h1
        simp at h1
      · simp [hxy]
  · rw [if_neg hex]
    dsimp only
    rw [costOf_append]
    cases hc : costOf G.edges x y with
    | some c0 => rfl
    | none =>
      by_cases hxy : x = u ∧ y = v
      · rcases hxy with ⟨rfl, rfl⟩
        rw [costOf_cons, if_pos ⟨rfl, rfl⟩]
        simp
      · rw [costOf_cons, if_neg (by rintro ⟨rfl, rfl⟩; exact hxy ⟨rfl, rfl⟩), costOf_nil]
        simp [hxy]

theorem pairsOf_addEdge_nodup (G : Graph) (u v : Int) (c : ℚ) (ct : Option ℚ)
    (h : (pairsOf G).Nodup) : (pairsOf (addEdge G u v c ct)).Nodup := by
  rw [addEdge_eq]
  by_cases hex : G.edges.any (fun e => decide (e.u = u ∧ e.v = v)) = true
  · rw [if_pos hex]
    have heq : pairsOf { G with edges := G.edges.map (capUpd u v c) } = pairsOf G := by
      unfold pairsOf
      dsimp only
      rw [List.map_map]
      apply List.map_congr_left
      intro e _
      simp [capUpd_u, capUpd_v]
    rw [heq]
    exact h
  · rw [if_neg hex]
    have hni : (u, v) ∉ pairsOf G := by
      intro hmem
      apply hex
      rcases List.mem_map.mp hmem with ⟨e, he, heq⟩
      rw [List.any_eq_true]
      refine ⟨e, he, ?_⟩
      simp only [decide_eq_true_eq]
      exact ⟨congrArg Prod.fst heq, congrArg Prod.snd heq⟩
    unfold pairsOf at *
    dsimp only
    rw [List.map_append]
    rw [List.nodup_append]
    refine ⟨h, List.nodup_singleton _, ?_⟩
    intro a ha hb
    rcases List.mem_singleton.mp hb with rfl
    exact hni ha

theorem buildG_nodup (scen reg : String) :
    ∀ (segs : List Seg) (G0 G : Graph), buildG scen reg segs G0 = .ok G →
      (pairsOf G0).Nodup → (pairsOf G).Nodup := by
  intro segs
  induction segs with
  | nil =>
    intro G0 G hb h
    cases hb
    exact h
  | cons seg tl ih =>
    intro G0 G hb h
    unfold buildG at hb
    cases hp : processSeg scen reg seg with
    | error err => rw [hp] at hb; cases hb
    | ok res =>
      rw [hp] at hb
      cases res with
      | none => exact ih G0 G hb h
      | some dat =>
        rcases dat with ⟨⟨u, v⟩, c, ct⟩
        exact ih (addEdge G0 u v c ct) G hb (pairsOf_addEdge_nodup G0 u v c ct h)

theorem buildG_capSum (scen reg : String) :
    ∀ (segs : List Seg) (G0 G : Graph), buildG scen reg segs G0 = .ok G →
      ∀ x y, capOfD G x y = capOfD G0 x y + mappedCapSum scen reg x y segs := by
  intro segs
  induction segs with
  | nil =>
    intro G0 G hb x y
    cases hb
    unfold mappedCapSum
    rw [add_zero]
  | cons seg tl ih =>
    intro G0 G hb x y
    unfold buildG at hb
    cases hp : processSeg scen reg seg with
    | error err => rw [hp] at hb; cases hb
    | ok res =>
      rw [hp] at hb
      cases res with
      | none =>
        rw [ih G0 G hb x y]
        have hstep : mappedCapSum scen reg x y (seg :: tl) =
            mappedCapSum scen reg x y tl := by
          simp only [mappedCapSum]
          rw [hp]
        rw [hstep]
      | some dat =>
        rcases dat with ⟨⟨u, v⟩, c, ct⟩
        rw [ih (addEdge G0 u v c ct) G hb x y, capOfD_addEdge]
        have hstep : mappedCapSum scen reg x y (seg :: tl) =
            (if u = x ∧ v = y then c else 0) + mappedCapSum scen reg x y tl := by
          simp only [mappedCapSum]
          rw [hp]
        rw [hstep]
        have hsw : (if x = u ∧ y = v then c else 0) =
            (if u = x ∧ v = y then c else 0) := by
          by_cases hc : x = u ∧ y = v
          · rw [if_pos hc, if_pos ⟨hc.1.symm, hc.2.symm⟩]
          · rw [if_neg hc, if_neg (by rintro ⟨rfl, rfl⟩; exact hc ⟨rfl, rfl⟩)]
        rw [add_assoc, hsw]

theorem buildG_cost (scen reg : String) :
    ∀ (segs : List Seg) (G0 G : Graph), buildG scen reg segs G0 = .ok G →
      ∀ x y, costOf G.edges x y =
        match costOf G0.edges x y with
        | some c0 => some c0
        | none => firstCost scen reg x y segs := by
  intro segs
  induction segs with
  | nil =>
    intro G0 G hb x y
    cases hb
    cases hc : costOf G0.edges x y with
    | none => rfl
    | some c0 => rfl
  | cons seg tl ih =>
    intro G0 G hb x y
    unfold buildG at hb
    cases hp : processSeg scen reg seg with
    | error err => rw [hp] at hb; cases hb
    | ok res =>
      rw [hp] at hb
      cases res with
      | none =>
        rw [ih G0 G hb x y]
        have hstep : firstCost scen reg x y (seg :: tl) =
            firstCost scen reg x y tl := by
          simp only [firstCost]
          rw [hp]
        rw [hstep]
      | some dat =>
        rcases dat with ⟨⟨u, v⟩, c, ct⟩
        rw [ih (addEdge G0 u v c ct) G hb x y, costOf_addEdge]
        have hstep : firstCost scen reg x y (seg :: tl) =
            (if u = x ∧ v = y then some ct else firstCost scen reg x y tl) := by
          simp only [firstCost]
          rw [hp]
        rw [hstep]
        cases hc : costOf G0.edges x y with
        | some c0 => rfl
        | none =>
          dsimp only
          by_cases hxy : x = u ∧ y = v
          · rw [if_pos hxy, if_pos ⟨hxy.1.symm, hxy.2.symm⟩]
          · rw [if_neg hxy, if_neg (by rintro ⟨rfl, rfl⟩; exact hxy ⟨rfl, rfl⟩)]

/-- C2: a built graph has at most one directed edge per ordered node pair,
and that edge's capacity is the sum of the (defaulted) capacities of all
segments that mapped to this ordered pair after reversal. -/
theorem claim_C2_capacity_summation (scen reg : String) (segs : List Seg)
    (G : Graph) (hb : generate_network_graph segs scen reg = .ok G) :
    (pairsOf G).Nodup ∧
    ∀ u v, capOfD G u v = mappedCapSum scen reg u v segs := by
  constructor
  · exact buildG_nodup scen reg segs { nodes := [], edges := [] } G hb
      (by unfold pairsOf; exact List.nodup_nil)
  · intro u v
    have h := buildG_capSum scen reg segs { nodes := [], edges := [] } G hb u v
    rw [h]
    have h0 : capOfD { nodes := [], edges := [] } u v = 0 := rfl
    rw [h0, zero_add]

theorem claim_C2_witness :
    (pairsOf (Graph.mk [1, 2, 3]
        [EdgeR.mk 1 2 3600 (some 10), EdgeR.mk 2 3 1800 (some 20)])).Nodup ∧
    ∀ u v, capOfD (Graph.mk [1, 2, 3]
        [EdgeR.mk 1 2 3600 (some 10), EdgeR.mk 2 3 1800 (some 20)]) u v =
      mappedCapSum "baseline" "Tampa Bay" u v
        [Seg.mk (some 1) (some 2) (some 3600) (some 10) none none,
         Seg.mk (some 2) (some 3) (some 1800) (some 20) none none] :=
  claim_C2_capacity_summation "baseline" "Tampa Bay"
    [Seg.mk (some 1) (some 2) (some 3600) (some 10) none none,
     Seg.mk (some 2) (some 3) (some 1800) (some 20) none none]
    (Graph.mk [1, 2, 3]
      [EdgeR.mk 1 2 3600 (some 10), EdgeR.mk 2 3 1800 (some 20)])
    rfl

/-- C9: merging a later segment into an existing edge only updates that
edge's capacity — the node list and every cost annotation are untouched (the
later segment's travel cost is discarded), so each edge's cost is the travel
cost of the first segment that created it. -/
theorem claim_C9_merge_cost_frame (scen reg : String) (segs : List Seg)
    (G : Graph) (hb : generate_network_graph segs scen reg = .ok G) :
    (∀ (H : Graph) (u v : Int) (c : ℚ) (ct : Option ℚ),
      H.edges.any (fun e => decide (e.u = u ∧ e.v = v)) = true →
      (addEdge H u v c ct).nodes = H.nodes ∧
      ∀ x y, costOf (addEdge H u v c ct).edges x y = costOf H.edges x y) ∧
    ∀ u v, costOf G.edges u v = firstCost scen reg u v segs := by
  constructor
  · intro H u v c ct hex
    rw [addEdge_eq, if_pos hex]
    exact ⟨rfl, fun x y => costOf_map_capUpd u v x y c H.edges⟩
  · intro u v
    have h := buildG_cost scen reg segs { nodes := [], edges := [] } G hb u v
    rw [h]
    rfl

theorem claim_C9_witness :
    costOf [EdgeR.mk 1 2 3600 (some 10), EdgeR.mk 2 3 1800 (some 20)] 1 2 =
      firstCost "baseline" "Tampa Bay" 1 2
        [Seg.mk (some 1) (some 2) (some 3600) (some 10) none none,
         Seg.mk (some 2) (some 3) (some 1800) (some 20) none none] :=
  (claim_C9_merge_cost_frame "baseline" "Tampa Bay"
    [Seg.mk (some 1) (some 2) (some 3600) (some 10) none none,
     Seg.mk (some 2) (some 3) (some 1800) (some 20) none none]
    (Graph.mk [1, 2, 3]
      [EdgeR.mk 1 2 3600 (some 10), EdgeR.mk 2 3 1800 (some 20)])
    rfl).2 1 2

/-! ### Claims about capacity resolution -/

/-- C1 fails on the code: `seg.capacity if seg.capacity else 1800.0` tests
Python truthiness, so a negative capacity is truthy and is kept as-is; here
a capacity of −5 produces an edge of capacity −5, not 1800.0. -/
theorem claim_C1_counterexample :
    generate_network_graph
        [{ source := some 1, target := some 2, capacity := some (-5),
           cost_time := some 10, geometry := none, road_name := none }]
        "baseline" "Tampa Bay" =
      .ok { nodes := [1, 2], edges := [{ u := 1, v := 2, cap := -5, cost := some 10 }] } ∧
    ((-5 : ℚ) ≤ 0 ∧ (-5 : ℚ) ≠ 1800) :=
  ⟨rfl, by norm_num⟩

/-- C1 amended: the capacity a segment contributes to its edge is the
segment's own capacity whenever that capacity is present and nonzero
(negative values included), and exactly 1800.0 when it is absent or zero. -/
theorem claim_C1_amended_default_capacity (seg : Seg) (region : String)
    (u v : Int) (G : Graph)
    (hs : seg.source = some u) (ht : seg.target = some v)
    (hb : generate_network_graph [seg] "baseline" region = .ok G) :
    capOfD G u v =
      (if seg.capacity = none ∨ seg.capacity = some 0 then 1800
       else seg.capacity.getD 0) := by
  unfold generate_network_graph buildG at hb
  rw [show processSeg "baseline" region seg =
      .ok (some ((u, v), resolvedCap seg, seg.cost_time)) by
    unfold processSeg
    rw [hs, ht]
    simp] at hb
  unfold buildG at hb
  cases hb
  have hcap : ∀ (c : ℚ) (ct : Option ℚ),
      capOfD (addEdge { nodes := [], edges := [] } u v c ct) u v = c := by
    intro c ct
    simp [capOfD, addEdge, capOf]
  rw [hcap]
  unfold resolvedCap
  match hc : seg.capacity with
  | none => simp
  | some c =>
    by_cases h0 : c = 0
    · subst h0
      simp
    · simp [h0]

theorem claim_C1_amended_witness :
    capOfD { nodes := [1, 2], edges := [{ u := 1, v := 2, cap := -5, cost := some 10 }] } 1 2 =
      (if (Seg.mk (some 1) (some 2) (some (-5)) (some 10) none none).capacity = none ∨
          (Seg.mk (some 1) (some 2) (some (-5)) (some 10) none none).capacity = some 0 then 1800
       else (Seg.mk (some 1) (some 2) (some (-5)) (some 10) none none).capacity.getD 0) :=
  claim_C1_amended_default_capacity
    (Seg.mk (some 1) (some 2) (some (-5)) (some 10) none none) "Tampa Bay" 1 2
    { nodes := [1, 2], edges := [{ u := 1, v := 2, cap := -5, cost := some 10 }] }
    rfl rfl rfl

/-! ### Claims about geometry handling under contraflow -/

/-- C4 fails on the code: a reversal-eligible contraflow segment whose
geometry parses to an empty coordinate sequence hits `coords[0]`, which
raises an uncaught `IndexError` (the loop has no try/except), so the build
does not return a graph at all. -/
theorem claim_C4_counterexample :
    (Seg.mk (some 1) (some 2) (some 1000) (some 10) (some [])
        (some "I-75 MAJOR HWY")).geometry = some [] ∧
    generate_network_graph
        [Seg.mk (some 1) (some 2) (some 1000) (some 10) (some [])
          (some "I-75 MAJOR HWY")]
        "contraflow" "Tampa Bay" = .error () :=
  ⟨rfl, rfl⟩

/-- C4 amended: a segment whose geometry carries no coordinate sequence at
all (absent or unparseable) is treated as non-eligible for reversal even
under contraflow — its edge keeps the original orientation and no exception
arises; only an eligible segment with an *empty* coordinate sequence raises. -/
theorem claim_C4_amended_missing_geometry (seg : Seg) (region : String)
    (u v : Int) (hs : seg.source = some u) (ht : seg.target = some v)
    (hg : seg.geometry = none) :
    processSeg "contraflow" region seg =
      .ok (some ((u, v), resolvedCap seg, seg.cost_time)) := by
  unfold processSeg
  rw [hs, ht]
  dsimp only
  by_cases hn : ("contraflow" == "contraflow" && truthyName seg.road_name) = true
  · rw [if_pos hn]
    by_cases hm : strHas (strUpper (seg.road_name.getD "")) "MAJOR HWY" = true
    · rw [if_pos hm, hg]
    · rw [if_neg hm]
  · rw [if_neg hn]

theorem claim_C4_amended_witness :
    processSeg "contraflow" "Tampa Bay"
        (Seg.mk (some 1) (some 2) (some 1000) (some 10) none
          (some "I-75 MAJOR HWY")) =
      .ok (some ((1, 2),
        resolvedCap (Seg.mk (some 1) (some 2) (some 1000) (some 10) none
          (some "I-75 MAJOR HWY")),
        (Seg.mk (some 1) (some 2) (some 1000) (some 10) none
          (some "I-75 MAJOR HWY")).cost_time)) :=
  claim_C4_amended_missing_geometry
    (Seg.mk (some 1) (some 2) (some 1000) (some 10) none (some "I-75 MAJOR HWY"))
    "Tampa Bay" 1 2 rfl rfl rfl

end Vectra
